import Mathlib

/-!
Verification model of `iopath/common/azure_blob.py` and
`iopath/common/non_blocking_io.py`.

The Python classes are shallowly embedded as Lean structures holding the same
mutable fields, and each Python method becomes a pure state-passing function
translated line by line from the source.  The Azure SDK client
(`azure.storage.blob.BlobClient`) is external to the repository; following the
design's view of it as an abstract collaborator that can "stage and commit
named blocks" and "open a download stream", it is modelled as a pure event
recorder attached to the state: `stage_block` appends a `(block_id, bytes)`
event and `commit_block_list` appends the committed id list.  The recorder
does not mutate the in-memory buffer that is handed to it.  Bytes are `Nat`s
(values below 256 where it matters), byte strings are `List Nat`.
-/

/-! ### Base64 (urlsafe) and decimal formatting, as used by `_new_block_id` -/

/-- The urlsafe base64 alphabet: index 0..63 to character. -/
def sextetChar (n : Nat) : Char :=
  if n < 26 then Char.ofNat (65 + n)
  else if n < 52 then Char.ofNat (97 + (n - 26))
  else if n < 62 then Char.ofNat (48 + (n - 52))
  else if n = 62 then '-' else '_'

/-- Inverse of the urlsafe base64 alphabet: character to index 0..63. -/
def charSextet (c : Char) : Nat :=
  if 65 ≤ c.toNat ∧ c.toNat ≤ 90 then c.toNat - 65
  else if 97 ≤ c.toNat ∧ c.toNat ≤ 122 then 26 + (c.toNat - 97)
  else if 48 ≤ c.toNat ∧ c.toNat ≤ 57 then 52 + (c.toNat - 48)
  else if c = '-' then 62 else 63

/-- `base64.urlsafe_b64encode` on a byte list, producing the character list of
the encoded string (with `=` padding). -/
def b64enc : List Nat → List Char
  | [] => []
  | [a] => [sextetChar (a / 4), sextetChar (a % 4 * 16), '=', '=']
  | [a, b] => [sextetChar (a / 4), sextetChar (a % 4 * 16 + b / 16),
               sextetChar (b % 16 * 4), '=']
  | a :: b :: c :: rest =>
      sextetChar (a / 4) :: sextetChar (a % 4 * 16 + b / 16) ::
      sextetChar (b % 16 * 4 + c / 64) :: sextetChar (c % 64) :: b64enc rest

/-- A base64 decoder (the spec's notion of "decoded" block identifiers;
not part of the Python source, which only encodes). -/
def b64dec : List Char → List Nat
  | c1 :: c2 :: c3 :: c4 :: rest =>
      if c3 = '=' then [charSextet c1 * 4 + charSextet c2 / 16]
      else if c4 = '=' then
        [charSextet c1 * 4 + charSextet c2 / 16,
         charSextet c2 % 16 * 16 + charSextet c3 / 4]
      else
        (charSextet c1 * 4 + charSextet c2 / 16) ::
        (charSextet c2 % 16 * 16 + charSextet c3 / 4) ::
        (charSextet c3 % 4 * 64 + charSextet c4) :: b64dec rest
  | _ => []

/-- Decimal digits of `n`, most significant first, via fuelled recursion
(`fuel ≥ n` makes the fallback unreachable). -/
def decDigitsAux : Nat → Nat → List Nat
  | 0, _ => []
  | fuel + 1, n => if n < 10 then [n] else decDigitsAux fuel (n / 10) ++ [n % 10]

/-- Decimal digits of `n`, most significant first. -/
def decDigits (n : Nat) : List Nat := decDigitsAux n n

/-- The character of a single decimal digit. -/
def digitChar : Nat → Char
  | 0 => '0' | 1 => '1' | 2 => '2' | 3 => '3' | 4 => '4'
  | 5 => '5' | 6 => '6' | 7 => '7' | 8 => '8' | 9 => '9'
  | _ => '*'

/-- Decimal string of `n` (character list), as Python `str(n)`. -/
def decStr (n : Nat) : List Char :=
  if n = 0 then ['0'] else (decDigits n).map digitChar

/-- Python `"{0:05}".format(n)`: decimal string of `n` left-padded with zeros
to a minimum width of 5 (wider numbers keep all their digits). -/
def format05 (n : Nat) : List Char :=
  List.replicate (5 - (decStr n).length) '0' ++ decStr n

/-- `AzureBlobWriter._new_block_id`'s identifier for block index `i`:
the urlsafe base64 encoding of the utf-8 bytes of `format05 i`. -/
def blockId (i : Nat) : String :=
  String.mk (b64enc ((format05 i).map Char.toNat))

/-- Decimal value of a list of ASCII digit bytes (48 = '0'). -/
def decVal (bytes : List Nat) : Nat :=
  bytes.foldl (fun a c => 10 * a + (c - 48)) 0

/-- The block index encoded by a block identifier: base64-decode, then read
the decimal bytes. -/
def decodeBlockId (s : String) : Nat := decVal (b64dec s.data)

/-! ### `AzureBlobWriter` -/

/-- Model of `io.BytesIO` as used by the writer: backing bytes plus the
stream position (`tell()`).  `write` overwrites from the current position and
extends the backing list as needed; `seek(0)` sets `pos := 0`. -/
structure ByteBuf where
  data : List Nat
  pos : Nat
deriving DecidableEq

/-- `io.BytesIO.write`: overwrite `b` at the current position, advance it. -/
def ByteBuf.write (buf : ByteBuf) (b : List Nat) : ByteBuf :=
  { data := buf.data.take buf.pos ++ b ++ buf.data.drop (buf.pos + b.length),
    pos := buf.pos + b.length }

/-- State of an `AzureBlobWriter` together with the abstract blob client's
recorded events (`staged` = `stage_block` calls, `commits` =
`commit_block_list` calls). -/
structure AzureBlobWriter where
  chunkSize : Nat
  chunkIdx : Int
  chunk : Option ByteBuf
  blocks : List String
  staged : List (String × List Nat)
  commits : List (List String)
deriving DecidableEq

/-- `AzureBlobWriter.__init__(client, chunk_size)`. -/
def initWriter (chunkSize : Nat) : AzureBlobWriter :=
  { chunkSize := chunkSize, chunkIdx := -1, chunk := none,
    blocks := [], staged := [], commits := [] }

/-- `AzureBlobWriter.flush`: no-op when the buffer is absent or at position 0;
otherwise generate the next block id (incrementing `_chunk_idx`), seek the
buffer to 0, stage its first `tell()` bytes, and append the id to `_blocks`. -/
def AzureBlobWriter.flush (s : AzureBlobWriter) : AzureBlobWriter :=
  match s.chunk with
  | none => s
  | some buf =>
    if buf.pos = 0 then s
    else
      let idx := s.chunkIdx + 1
      let bid := blockId idx.toNat
      { s with chunkIdx := idx,
               chunk := some { buf with pos := 0 },
               blocks := s.blocks ++ [bid],
               staged := s.staged ++ [(bid, buf.data.take buf.pos)] }

/-- `AzureBlobWriter._next_chunk`: flush, then start a fresh `BytesIO`. -/
def AzureBlobWriter.nextChunk (s : AzureBlobWriter) : AzureBlobWriter :=
  let s' := s.flush
  { s' with chunk := some { data := [], pos := 0 } }

/-- `AzureBlobWriter._append_to_chunk`: roll over when the buffer is absent or
its position has reached the configured chunk size, then write `b`. -/
def AzureBlobWriter.appendToChunk (s : AzureBlobWriter) (b : List Nat) :
    AzureBlobWriter :=
  let s' :=
    match s.chunk with
    | none => s.nextChunk
    | some buf => if s.chunkSize ≤ buf.pos then s.nextChunk else s
  match s'.chunk with
  | none => s'
  | some buf => { s' with chunk := some (buf.write b) }

/-- `AzureBlobWriter.write`. -/
def AzureBlobWriter.write (s : AzureBlobWriter) (b : List Nat) :
    AzureBlobWriter :=
  s.appendToChunk b

/-- A sequence of `write` calls, in issue order. -/
def AzureBlobWriter.writeMany (s : AzureBlobWriter) (ws : List (List Nat)) :
    AzureBlobWriter :=
  ws.foldl AzureBlobWriter.write s

/-- `AzureBlobWriter.close`: flush, then commit the block list if any. -/
def AzureBlobWriter.close (s : AzureBlobWriter) : AzureBlobWriter :=
  let s' := s.flush
  if s'.blocks = [] then s' else { s' with commits := s'.commits ++ [s'.blocks] }

/-- Concatenation, in staging (= committed) order, of the bytes staged by each
flush. -/
def AzureBlobWriter.stagedBytes (s : AzureBlobWriter) : List Nat :=
  (s.staged.map Prod.snd).flatten

/-- The live part of the in-memory buffer: the bytes a future flush would
stage (`data[0:tell()]`). -/
def AzureBlobWriter.live (s : AzureBlobWriter) : List Nat :=
  match s.chunk with
  | none => []
  | some buf => buf.data.take buf.pos

/-- Structural invariant tying `_blocks`, the staged events and `_chunk_idx`
together: the id list mirrors the staged events, the ids are
`blockId 0, blockId 1, ...` in staging order, and `_chunk_idx` is the last
used index. -/
def AzureBlobWriter.blocksInv (s : AzureBlobWriter) : Prop :=
  s.blocks = s.staged.map Prod.fst ∧
  s.staged.map Prod.fst = (List.range s.staged.length).map blockId ∧
  s.chunkIdx = (s.staged.length : Int) - 1

/-- Well-formedness of the buffer: the stream position never exceeds the
backing length (`BytesIO` only seeks to 0 here). -/
def AzureBlobWriter.bufWF (s : AzureBlobWriter) : Prop :=
  ∀ buf, s.chunk = some buf → buf.pos ≤ buf.data.length

/-! ### `AzureBlobReader` -/

/-- State of an `AzureBlobReader`: the backend's lazy chunk sequence is the
list `chunks` together with the iterator position `idx`; `chunk`/`pos` are the
buffered chunk and cursor. -/
structure AzureBlobReader where
  chunks : List (List Nat)
  idx : Nat
  chunk : Option (List Nat)
  pos : Nat
  chunkSize : Nat
deriving DecidableEq

/-- `AzureBlobReader.__init__`. -/
def initReader (chunks : List (List Nat)) (chunkSize : Nat) : AzureBlobReader :=
  { chunks := chunks, idx := 0, chunk := none, pos := 0, chunkSize := chunkSize }

/-- `AzureBlobReader._next_chunk`: advance the chunk iterator and reset the
cursor; `none` models `StopIteration` (state untouched, as the exception is
raised before any assignment). -/
def AzureBlobReader.nextChunk (s : AzureBlobReader) : Option AzureBlobReader :=
  if h : s.idx < s.chunks.length then
    some { s with chunk := some (s.chunks.get ⟨s.idx, h⟩),
                  idx := s.idx + 1, pos := 0 }
  else none

/-- The fetch condition of `_get_chunk_data`:
`self._chunk is None or self._chunk_pos >= len(self._chunk)`. -/
def AzureBlobReader.fetchCondB (s : AzureBlobReader) : Bool :=
  match s.chunk with
  | none => true
  | some c => decide (c.length ≤ s.pos)

/-- `AzureBlobReader._get_chunk_data`: serve up to `size` bytes from the
buffered chunk, fetching the next chunk first when required; `StopIteration`
yields `b""` with the state unchanged. -/
def AzureBlobReader.getChunkData (s : AzureBlobReader) (size : Nat) :
    List Nat × AzureBlobReader :=
  if size = 0 then ([], s)
  else
    match (if s.fetchCondB then s.nextChunk else some s) with
    | none => ([], s)
    | some t =>
      match t.chunk with
      | none => ([], t)
      | some c =>
        let d := (c.drop t.pos).take size
        (d, { t with pos := t.pos + d.length })

/-- The bytes not yet served: remainder of the buffered chunk plus all chunks
the iterator has not yielded. -/
def AzureBlobReader.remList (s : AzureBlobReader) : List Nat :=
  (match s.chunk with
   | none => []
   | some c => c.drop s.pos) ++ (s.chunks.drop s.idx).flatten

/-- Number of bytes not yet served (fuel bound for `readall`). -/
def AzureBlobReader.remBytes (s : AzureBlobReader) : Nat :=
  s.remList.length

/-- Bytes remaining in the buffered chunk (`len(chunk) - pos`; 0 when no
chunk is buffered or the cursor has consumed it). -/
def AzureBlobReader.chunkRem (s : AzureBlobReader) : Nat :=
  match s.chunk with
  | none => 0
  | some c => c.length - s.pos

/-- The `readall`/`readinto` loop: repeatedly `_get_chunk_data(chunk_size)`
until an empty slice comes back.  The loop is fuelled; `remBytes + 1` units
always suffice because every non-empty slice removes at least one remaining
byte, so the fuelled function equals the Python loop. -/
def AzureBlobReader.readallAux : Nat → AzureBlobReader → List Nat × AzureBlobReader
  | 0, s => ([], s)
  | fuel + 1, s =>
    let r := s.getChunkData s.chunkSize
    if r.1 = [] then ([], r.2)
    else
      let rest := readallAux fuel r.2
      (r.1 ++ rest.1, rest.2)

/-- `AzureBlobReader.readall`. -/
def AzureBlobReader.readall (s : AzureBlobReader) : List Nat × AzureBlobReader :=
  AzureBlobReader.readallAux (s.remBytes + 1) s

/-- `AzureBlobReader.read(size)`: negative size reads to exhaustion. -/
def AzureBlobReader.read (s : AzureBlobReader) (size : Int) :
    List Nat × AzureBlobReader :=
  if size < 0 then s.readall else s.getChunkData size.toNat

/-- A sequence of `read` calls; collects each call's result in order. -/
def AzureBlobReader.readSeq (s : AzureBlobReader) :
    List Int → List (List Nat) × AzureBlobReader
  | [] => ([], s)
  | k :: ks =>
    let r := s.read k
    let rest := r.2.readSeq ks
    (r.1 :: rest.1, rest.2)

/-! ### `NonBlockingIOManager` and the async write handles -/

/-- An IO job enqueued by a handle: the closure `file.write(b)` or
`file.close()`. -/
inductive Job where
  | jwrite (b : List Nat)
  | jclose
deriving DecidableEq

/-- `PathData`: one FIFO job queue (front = oldest; `none` is the terminal
sentinel the manager enqueues on join) and the identifier of the dedicated
dispatcher thread. -/
structure PathData where
  queue : List (Option Job)
  thread : Nat
deriving DecidableEq

/-- The manager's singleton state: the `_path_to_data` registry, a counter
producing fresh dispatcher-thread identifiers, and the shared pool's
shutdown flag. -/
structure NonBlockingIOManager where
  registry : List (String × PathData)
  nextThread : Nat
  poolDown : Bool
deriving DecidableEq

/-- Dictionary lookup in the registry. -/
def lookupPath : List (String × PathData) → String → Option PathData
  | [], _ => none
  | e :: rest, p => if e.1 = p then some e.2 else lookupPath rest p

/-- `dict.pop`: remove the entry for `p`. -/
def erasePath : List (String × PathData) → String → List (String × PathData)
  | [], _ => []
  | e :: rest, p => if e.1 = p then rest else e :: erasePath rest p

/-- `NonBlockingIOManager.get_non_blocking_io`: on first use of a path,
create its queue and start its dispatcher thread. -/
def getNonBlockingHandle (m : NonBlockingIOManager) (p : String) :
    NonBlockingIOManager :=
  match lookupPath m.registry p with
  | some _ => m
  | none =>
    { m with registry := m.registry ++ [(p, { queue := [], thread := m.nextThread })],
             nextThread := m.nextThread + 1 }

/-- `queue.put(item)` on the queue registered for `p` (`notify_manager`). -/
def enqueueItem (m : NonBlockingIOManager) (p : String) (it : Option Job) :
    NonBlockingIOManager :=
  { m with registry :=
      m.registry.map fun e =>
        if e.1 = p then (e.1, { e.2 with queue := e.2.queue ++ [it] }) else e }

/-- The synchronous file handle underlying a `NonBlockingHandle`. -/
structure FileState where
  written : List (List Nat)
  closed : Bool
deriving DecidableEq

/-- A `write` or `close` call on a `NonBlockingHandle` for path `p`: the call
only enqueues the corresponding closure; the underlying file is untouched. -/
def handleCall (p : String) :
    NonBlockingIOManager × FileState → Job → NonBlockingIOManager × FileState
  | (m, f), c => (enqueueItem m p (some c), f)

/-- A sequence of handle calls, in call order. -/
def handleCalls (p : String) (mf : NonBlockingIOManager × FileState)
    (calls : List Job) : NonBlockingIOManager × FileState :=
  calls.foldl (handleCall p) mf

/-- `NonBlockingIOManager._poll_jobs`: the dispatcher dequeues and executes
jobs in FIFO order until it dequeues the `None` sentinel, then exits.  The
result is the list of executed jobs, in execution order. -/
def drain : List (Option Job) → List Job
  | [] => []
  | none :: _ => []
  | some j :: rest => j :: drain rest

/-- The `ValueError` message raised by `_join` for a truthy unregistered path. -/
def joinErrorMsg (p : String) : String :=
  p ++ " has no async IO associated with it. Make sure `opena(" ++ p ++
  ")` is called first."

/-- `_join(None)` / `_join("")` (falsy argument): pop every path, enqueue its
sentinel, join its dispatcher, then shut the shared pool down.  Returns the
executed jobs per path. -/
def joinAll (m : NonBlockingIOManager) :
    NonBlockingIOManager × List (String × List Job) :=
  ({ m with registry := [], poolDown := true },
   m.registry.map fun e => (e.1, drain (e.2.queue ++ [none])))

/-- `NonBlockingIOManager._join(path)`: a truthy path absent from the registry
raises `ValueError` (before any mutation); a truthy registered path is popped,
its queue receives the sentinel, and its dispatcher is joined; a falsy path
(`None` or `""`) joins every path and shuts the pool down. -/
def joinManager (m : NonBlockingIOManager) (p? : Option String) :
    Except String (NonBlockingIOManager × List (String × List Job)) :=
  match p? with
  | some p =>
    if p = "" then Except.ok (joinAll m)
    else
      match lookupPath m.registry p with
      | none => Except.error (joinErrorMsg p)
      | some pd =>
        Except.ok ({ m with registry := erasePath m.registry p },
                   [(p, drain (pd.queue ++ [none]))])
  | none => Except.ok (joinAll m)

/-! ### Lemmas: base64 and decimal formatting -/

theorem charSextet_sextetChar : ∀ n < 64, charSextet (sextetChar n) = n := by
  decide

theorem sextetChar_ne_pad : ∀ n < 64, sextetChar n ≠ '=' := by
  decide

theorem length_eq_five (l : List Nat) (h : l.length = 5) :
    ∃ a b c d e, l = [a, b, c, d, e] := by
  match l, h with
  | [a, b, c, d, e], _ => exact ⟨a, b, c, d, e, rfl⟩

theorem b64enc_length5 (l : List Nat) (h : l.length = 5) :
    (b64enc l).length = 8 := by
  obtain ⟨a, b, c, d, e, rfl⟩ := length_eq_five l h
  simp [b64enc]

theorem b64enc_getLast5 (l : List Nat) (h : l.length = 5) :
    (b64enc l).getLast? = some '=' := by
  obtain ⟨a, b, c, d, e, rfl⟩ := length_eq_five l h
  simp [b64enc]

theorem b64dec_b64enc5 (l : List Nat) (h : l.length = 5)
    (hb : ∀ x ∈ l, x < 256) : b64dec (b64enc l) = l := by
  obtain ⟨a, b, c, d, e, rfl⟩ := length_eq_five l h
  have ha : a < 256 := hb a (by simp)
  have hbb : b < 256 := hb b (by simp)
  have hc : c < 256 := hb c (by simp)
  have hd : d < 256 := hb d (by simp)
  have he : e < 256 := hb e (by simp)
  simp only [b64enc, b64dec]
  rw [if_neg (sextetChar_ne_pad _ (by omega)),
      if_neg (sextetChar_ne_pad _ (by omega)),
      if_neg (sextetChar_ne_pad _ (by omega))]
  simp only [if_true]
  rw [charSextet_sextetChar _ (by omega), charSextet_sextetChar _ (by omega),
      charSextet_sextetChar _ (by omega), charSextet_sextetChar _ (by omega),
      charSextet_sextetChar _ (by omega), charSextet_sextetChar _ (by omega),
      charSextet_sextetChar _ (by omega)]
  simp only [List.cons.injEq, and_true]
  refine ⟨by omega, by omega, by omega, by omega, by omega⟩

theorem decDigitsAux_eq_digits :
    ∀ fuel n, 0 < n → n ≤ fuel → decDigitsAux fuel n = (Nat.digits 10 n).reverse := by
  intro fuel
  induction fuel with
  | zero => intro n h1 h2; omega
  | succ fuel ih =>
    intro n h1 h2
    rw [decDigitsAux]
    by_cases hn : n < 10
    · rw [if_pos hn, Nat.digits_def' (by norm_num) h1,
        Nat.div_eq_of_lt hn, Nat.digits_zero, Nat.mod_eq_of_lt hn]
      rfl
    · rw [if_neg hn, ih (n / 10) (by omega) (by
        have := Nat.div_lt_self h1 (by norm_num : 1 < 10); omega)]
      rw [Nat.digits_def' (by norm_num : 1 < 10) h1, List.reverse_cons]

theorem decDigits_eq_digits (n : Nat) (h : 0 < n) :
    decDigits n = (Nat.digits 10 n).reverse :=
  decDigitsAux_eq_digits n n h le_rfl

theorem decStr_length_le (n : Nat) (h : n < 100000) : (decStr n).length ≤ 5 := by
  rcases Nat.eq_zero_or_pos n with h0 | h0
  · subst h0; simp [decStr]
  · rw [decStr, if_neg (by omega), decDigits_eq_digits n h0]
    simp only [List.length_map, List.length_reverse]
    rw [Nat.digits_len 10 n (by norm_num) (by omega)]
    have : Nat.log 10 n < 5 := by
      rw [← Nat.lt_pow_iff_log_lt (by norm_num) (by omega)]
      norm_num
      omega
    omega

theorem format05_length (n : Nat) :
    (format05 n).length = max 5 (decStr n).length := by
  simp [format05]
  omega

theorem format05_length5 (n : Nat) (h : n < 100000) :
    (format05 n).length = 5 := by
  rw [format05_length]
  have := decStr_length_le n h
  omega

theorem digitChar_toNat : ∀ d < 10, (digitChar d).toNat = 48 + d := by decide

theorem decStr_mem_toNat (n : Nat) :
    ∀ ch ∈ decStr n, 48 ≤ ch.toNat ∧ ch.toNat < 58 := by
  intro ch hch
  rcases Nat.eq_zero_or_pos n with h0 | h0
  · subst h0; simp [decStr] at hch; subst hch; decide
  · rw [decStr, if_neg (by omega), decDigits_eq_digits n h0] at hch
    simp only [List.mem_map, List.mem_reverse] at hch
    obtain ⟨d, hd, rfl⟩ := hch
    have hlt : d < 10 := Nat.digits_lt_base (by norm_num) hd
    rw [digitChar_toNat d hlt]
    omega

theorem format05_mem_toNat (n : Nat) :
    ∀ ch ∈ format05 n, 48 ≤ ch.toNat ∧ ch.toNat < 58 := by
  intro ch hch
  rw [format05, List.mem_append] at hch
  rcases hch with hch | hch
  · rw [List.eq_of_mem_replicate hch]; decide
  · exact decStr_mem_toNat n ch hch

theorem decVal_zeros (m : Nat) :
    List.foldl (fun a c => 10 * a + (c - 48)) 0 (List.replicate m 48) = 0 := by
  induction m with
  | zero => rfl
  | succ m ih => rw [List.replicate_succ, List.foldl_cons]; simpa using ih

theorem foldl_shift (l : List Nat) :
    ∀ a, List.foldl (fun a c => 10 * a + (c - 48)) a
        (l.map (fun d => 48 + d)) = List.foldl (fun a d => 10 * a + d) a l := by
  induction l with
  | nil => intro a; rfl
  | cons d l ih =>
    intro a
    simp only [List.map_cons, List.foldl_cons]
    rw [show 48 + d - 48 = d by omega]
    exact ih _

theorem foldl_reverse_ofDigits (l : List Nat) :
    List.foldl (fun a d => 10 * a + d) 0 l.reverse = Nat.ofDigits 10 l := by
  induction l with
  | nil => rfl
  | cons d l ih =>
    rw [List.reverse_cons, List.foldl_append, ih, Nat.ofDigits_cons]
    simp
    omega

theorem decVal_decStr (n : Nat) : decVal ((decStr n).map Char.toNat) = n := by
  rcases Nat.eq_zero_or_pos n with h0 | h0
  · subst h0; rfl
  · rw [decStr, if_neg (by omega), decDigits_eq_digits n h0]
    have hmap : ((Nat.digits 10 n).reverse.map digitChar).map Char.toNat
        = (Nat.digits 10 n).reverse.map (fun d => 48 + d) := by
      rw [List.map_map]
      refine List.map_congr_left ?_
      intro d hd
      rw [List.mem_reverse] at hd
      exact digitChar_toNat d (Nat.digits_lt_base (by norm_num) hd)
    rw [hmap, decVal, foldl_shift, foldl_reverse_ofDigits, Nat.ofDigits_digits]

theorem decVal_format05 (n : Nat) :
    decVal ((format05 n).map Char.toNat) = n := by
  rw [format05, List.map_append, decVal, List.foldl_append]
  have hrep : (List.replicate (5 - (decStr n).length) '0').map Char.toNat
      = List.replicate (5 - (decStr n).length) 48 := by
    simp [List.map_replicate]
  rw [hrep, decVal_zeros]
  exact decVal_decStr n

theorem format05_toNat_length5 (i : Nat) (h : i < 100000) :
    ((format05 i).map Char.toNat).length = 5 := by
  rw [List.length_map]; exact format05_length5 i h

theorem decodeBlockId_blockId (i : Nat) (h : i < 100000) :
    decodeBlockId (blockId i) = i := by
  rw [decodeBlockId, blockId]
  have hdata : (String.mk (b64enc ((format05 i).map Char.toNat))).data
      = b64enc ((format05 i).map Char.toNat) := rfl
  rw [hdata, b64dec_b64enc5 _ (format05_toNat_length5 i h) ?bound]
  case bound =>
    intro x hx
    simp only [List.mem_map] at hx
    obtain ⟨ch, hch, rfl⟩ := hx
    have := format05_mem_toNat i ch hch
    omega
  exact decVal_format05 i

theorem blockId_length8 (i : Nat) (h : i < 100000) : (blockId i).length = 8 := by
  rw [blockId]
  show (b64enc ((format05 i).map Char.toNat)).length = 8
  exact b64enc_length5 _ (format05_toNat_length5 i h)

/-! ### Lemmas: `AzureBlobWriter` -/

theorem ByteBuf.live_write (buf : ByteBuf) (b : List Nat)
    (h : buf.pos ≤ buf.data.length) :
    (buf.write b).data.take (buf.write b).pos = buf.data.take buf.pos ++ b := by
  have hlen : (buf.data.take buf.pos).length = buf.pos := by
    simp [List.length_take]
    omega
  simp only [ByteBuf.write]
  rw [List.take_append_eq_append_take]
  have h2 : (buf.data.take buf.pos ++ b).length = buf.pos + b.length := by
    simp
    omega
  rw [List.take_of_length_le (le_of_eq h2), h2, Nat.sub_self, List.take_zero,
      List.append_nil]

theorem ByteBuf.wf_write (buf : ByteBuf) (b : List Nat)
    (h : buf.pos ≤ buf.data.length) :
    (buf.write b).pos ≤ (buf.write b).data.length := by
  simp only [ByteBuf.write, List.length_append, List.length_take]
  omega

theorem AzureBlobWriter.live_flush (s : AzureBlobWriter) : s.flush.live = [] := by
  rw [AzureBlobWriter.flush]
  match h : s.chunk with
  | none => simp [AzureBlobWriter.live, h]
  | some buf =>
    by_cases hp : buf.pos = 0
    · simp [AzureBlobWriter.live, h, hp]
    · simp [AzureBlobWriter.live, h, hp]

theorem AzureBlobWriter.stagedBytes_flush (s : AzureBlobWriter) :
    s.flush.stagedBytes = s.stagedBytes ++ s.live := by
  rw [AzureBlobWriter.flush]
  match h : s.chunk with
  | none => simp [AzureBlobWriter.live, h]
  | some buf =>
    by_cases hp : buf.pos = 0
    · simp [AzureBlobWriter.live, h, hp]
    · simp [AzureBlobWriter.live, AzureBlobWriter.stagedBytes, h, hp]

theorem AzureBlobWriter.wf_flush (s : AzureBlobWriter) (h : s.bufWF) :
    s.flush.bufWF := by
  rw [AzureBlobWriter.flush]
  match hc : s.chunk with
  | none => exact h
  | some buf =>
    by_cases hp : buf.pos = 0
    · simpa [hp] using h
    · intro b hb
      simp [hp] at hb
      simp [← hb]

theorem AzureBlobWriter.chunkSize_flush (s : AzureBlobWriter) :
    s.flush.chunkSize = s.chunkSize := by
  rw [AzureBlobWriter.flush]
  match hc : s.chunk with
  | none => rfl
  | some buf =>
    by_cases hp : buf.pos = 0 <;> simp [hp]

theorem AzureBlobWriter.commits_flush (s : AzureBlobWriter) :
    s.flush.commits = s.commits := by
  rw [AzureBlobWriter.flush]
  match hc : s.chunk with
  | none => rfl
  | some buf =>
    by_cases hp : buf.pos = 0 <;> simp [hp]

theorem AzureBlobWriter.append_step (s : AzureBlobWriter) (b : List Nat)
    (h : s.bufWF) :
    (s.appendToChunk b).stagedBytes ++ (s.appendToChunk b).live
        = s.stagedBytes ++ s.live ++ b
    ∧ (s.appendToChunk b).bufWF
    ∧ (s.appendToChunk b).commits = s.commits
    ∧ (s.appendToChunk b).chunkSize = s.chunkSize := by
  rw [AzureBlobWriter.appendToChunk]
  match hc : s.chunk with
  | none =>
    have hflush : s.flush = s := by rw [AzureBlobWriter.flush, hc]
    simp only [AzureBlobWriter.nextChunk, hflush]
    refine ⟨?_, ?_, by trivial, by trivial⟩
    · simp [AzureBlobWriter.live, AzureBlobWriter.stagedBytes, ByteBuf.write,
        AzureBlobWriter.stagedBytes, hc]
    · intro buf hbuf
      simp [ByteBuf.write] at hbuf
      simp [← hbuf]
  | some buf =>
    by_cases hroll : s.chunkSize ≤ buf.pos
    · simp only [if_pos hroll, AzureBlobWriter.nextChunk]
      have hlive : s.flush.live = [] := s.live_flush
      have hbytes := s.stagedBytes_flush
      have hcom := s.commits_flush
      have hcs := s.chunkSize_flush
      constructor
      · simp only [AzureBlobWriter.live, AzureBlobWriter.stagedBytes] at *
        simp [ByteBuf.write, hbytes]
      · refine ⟨?_, by simp [hcom], by simp [hcs]⟩
        intro bf hbf
        simp [ByteBuf.write] at hbf
        simp [← hbf]
    · simp only [if_neg hroll, hc]
      refine ⟨?_, ?_, by trivial, by trivial⟩
      · have := ByteBuf.live_write buf b (h buf hc)
        simp only [AzureBlobWriter.live, AzureBlobWriter.stagedBytes, hc]
        simp [this]
      · intro bf hbf
        simp at hbf
        rw [← hbf]
        exact ByteBuf.wf_write buf b (h buf hc)

theorem AzureBlobWriter.writeMany_total (ws : List (List Nat)) :
    ∀ s : AzureBlobWriter, s.bufWF →
    (s.writeMany ws).stagedBytes ++ (s.writeMany ws).live
        = s.stagedBytes ++ s.live ++ ws.flatten
    ∧ (s.writeMany ws).bufWF
    ∧ (s.writeMany ws).commits = s.commits := by
  induction ws with
  | nil => intro s hs; simp [AzureBlobWriter.writeMany]; exact hs
  | cons w ws ih =>
    intro s hs
    have hstep := s.append_step w hs
    have hrec := ih (s.appendToChunk w) hstep.2.1
    have hfold : s.writeMany (w :: ws) = (s.appendToChunk w).writeMany ws := rfl
    rw [hfold]
    refine ⟨?_, hrec.2.1, by rw [hrec.2.2, hstep.2.2.1]⟩
    rw [hrec.1, hstep.1]
    simp

theorem AzureBlobWriter.binv_flush (s : AzureBlobWriter) (h : s.blocksInv) :
    s.flush.blocksInv := by
  obtain ⟨h1, h2, h3⟩ := h
  rw [AzureBlobWriter.flush]
  match hc : s.chunk with
  | none => exact ⟨h1, h2, h3⟩
  | some buf =>
    by_cases hp : buf.pos = 0
    · simp only [if_pos hp]; exact ⟨h1, h2, h3⟩
    · simp only [if_neg hp]
      have hidx : (s.chunkIdx + 1).toNat = s.staged.length := by
        rw [h3]
        have : (s.staged.length : Int) - 1 + 1 = (s.staged.length : Int) := by ring
        rw [this, Int.toNat_natCast]
      refine ⟨?_, ?_, ?_⟩
      · simp [h1]
      · simp only [List.map_append, List.length_append, h2, hidx]
        simp [List.range_succ]
      · simp only [List.length_append, List.length_cons, List.length_nil, h3]
        push_cast
        ring

theorem AzureBlobWriter.binv_append (s : AzureBlobWriter) (b : List Nat)
    (h : s.blocksInv) : (s.appendToChunk b).blocksInv := by
  rw [AzureBlobWriter.appendToChunk]
  have hnext : s.nextChunk.blocksInv := by
    have := s.binv_flush h
    exact ⟨this.1, this.2.1, this.2.2⟩
  match hc : s.chunk with
  | none =>
    match hc2 : s.nextChunk.chunk with
    | none => exact hnext
    | some buf => exact ⟨hnext.1, hnext.2.1, hnext.2.2⟩
  | some buf =>
    by_cases hroll : s.chunkSize ≤ buf.pos
    · simp only [if_pos hroll]
      match hc2 : s.nextChunk.chunk with
      | none => exact hnext
      | some buf2 => exact ⟨hnext.1, hnext.2.1, hnext.2.2⟩
    · simp only [if_neg hroll, hc]
      exact ⟨h.1, h.2.1, h.2.2⟩

theorem AzureBlobWriter.binv_writeMany (ws : List (List Nat)) :
    ∀ s : AzureBlobWriter, s.blocksInv → (s.writeMany ws).blocksInv := by
  induction ws with
  | nil => intro s hs; exact hs
  | cons w ws ih =>
    intro s hs
    exact ih (s.appendToChunk w) (s.binv_append w hs)

theorem AzureBlobWriter.staged_close (s : AzureBlobWriter) :
    s.close.staged = s.flush.staged ∧ s.close.blocks = s.flush.blocks ∧
    s.close.commits
      = (if s.flush.blocks = [] then s.flush.commits
         else s.flush.commits ++ [s.flush.blocks]) := by
  rw [AzureBlobWriter.close]
  by_cases hb : s.flush.blocks = [] <;> simp [hb]

theorem AzureBlobWriter.chunk_close (s : AzureBlobWriter) :
    s.close.chunk = s.flush.chunk := by
  rw [AzureBlobWriter.close]
  by_cases hb : s.flush.blocks = [] <;> simp [hb]

theorem AzureBlobWriter.flush_chunk_pos (s : AzureBlobWriter) :
    ∀ buf, s.flush.chunk = some buf → buf.pos = 0 := by
  intro buf
  rw [AzureBlobWriter.flush]
  match hc : s.chunk with
  | none => intro hb; rw [hc] at hb; cases hb
  | some b0 =>
    by_cases hp : b0.pos = 0
    · simp only [if_pos hp, hc]
      intro hb
      cases hb
      exact hp
    · simp only [if_neg hp]
      intro hb
      simp at hb
      simp [← hb]

theorem AzureBlobWriter.flush_noop (s : AzureBlobWriter)
    (h : ∀ buf, s.chunk = some buf → buf.pos = 0) : s.flush = s := by
  rw [AzureBlobWriter.flush]
  match hc : s.chunk with
  | none => rfl
  | some buf => simp [h buf hc]

/-- C1: for every sequence of write calls and any configured block size
`S > 0`, the bytes staged by the flushes, concatenated in staging order (which
is exactly the order of the committed block list), equal the concatenation of
the writes in issue order, and `close()` commits exactly that block list
(no commit when nothing was ever staged). -/
theorem claim_C1 (writes : List (List Nat)) (S : Nat) (hS : 0 < S) :
    ((initWriter S).writeMany writes).close.stagedBytes = writes.flatten ∧
    ((initWriter S).writeMany writes).close.blocks
      = ((initWriter S).writeMany writes).close.staged.map Prod.fst ∧
    ((initWriter S).writeMany writes).close.commits
      = (if ((initWriter S).writeMany writes).close.blocks = [] then []
         else [((initWriter S).writeMany writes).close.blocks]) := by
  have hwf0 : (initWriter S).bufWF := by
    intro buf hbuf
    simp [initWriter] at hbuf
  have htot := AzureBlobWriter.writeMany_total writes (initWriter S) hwf0
  have h0s : (initWriter S).stagedBytes = [] := rfl
  have h0l : (initWriter S).live = [] := rfl
  have h0c : (initWriter S).commits = [] := rfl
  set w := (initWriter S).writeMany writes with hw
  have htot1 : w.stagedBytes ++ w.live = writes.flatten := by
    have := htot.1
    rw [h0s, h0l] at this
    simpa using this
  have hcl := w.staged_close
  have hbinv0 : (initWriter S).blocksInv := by
    refine ⟨rfl, rfl, ?_⟩
    simp [initWriter]
  have hbinv : w.blocksInv := AzureBlobWriter.binv_writeMany writes _ hbinv0
  have hbinvf : w.flush.blocksInv := w.binv_flush hbinv
  refine ⟨?_, ?_, ?_⟩
  · have : w.close.stagedBytes = w.flush.stagedBytes := by
      simp [AzureBlobWriter.stagedBytes, hcl.1]
    rw [this, w.stagedBytes_flush, htot1]
  · rw [hcl.2.1, hcl.1, hbinvf.1]
  · rw [hcl.2.2, hcl.2.1]
    have hcom : w.flush.commits = [] := by
      rw [w.commits_flush, htot.2.2, h0c]
    rw [hcom]
    by_cases hb : w.flush.blocks = [] <;> simp [hb]

theorem claim_C1_witness :
    0 < 2 ∧
    (((initWriter 2).writeMany [[1, 2], [3, 4, 5]]).close.stagedBytes
        = [[1, 2], [3, 4, 5]].flatten ∧
     ((initWriter 2).writeMany [[1, 2], [3, 4, 5]]).close.blocks
        = ((initWriter 2).writeMany [[1, 2], [3, 4, 5]]).close.staged.map Prod.fst ∧
     ((initWriter 2).writeMany [[1, 2], [3, 4, 5]]).close.commits
        = (if ((initWriter 2).writeMany [[1, 2], [3, 4, 5]]).close.blocks = []
           then []
           else [((initWriter 2).writeMany [[1, 2], [3, 4, 5]]).close.blocks])) :=
  ⟨by decide, claim_C1 [[1, 2], [3, 4, 5]] 2 (by decide)⟩

/-- C2 counterexample: with block size `S = 2` and a buffer already holding
one byte, a write of three bytes would make the buffer exceed `S`, yet the
writer stages nothing and does not reset the buffer: the bytes are appended
to the existing buffer, which ends up holding 4 > 2 bytes. -/
theorem claim_C2_counterexample :
    ((initWriter 2).write [97]).chunk = some ⟨[97], 1⟩ ∧
    2 < 1 + 3 ∧
    (((initWriter 2).write [97]).write [98, 99, 100]).staged
      = ((initWriter 2).write [97]).staged ∧
    (((initWriter 2).write [97]).write [98, 99, 100]).chunk
      = some ⟨[97, 98, 99, 100], 4⟩ := by decide

/-- C2 (amended): a write flushes-then-resets before appending exactly when
the buffer is absent or already holds at least `S` bytes — not when the
append would make it exceed `S`.  Consequently the buffer that receives a
write's bytes holds fewer than `S` bytes from earlier writes (though a single
large write can push it past `S`). -/
theorem claim_C2_amended (s : AzureBlobWriter) (b : List Nat)
    (hS : 0 < s.chunkSize) :
    (∀ buf, s.chunk = some buf → buf.pos < s.chunkSize →
        (s.appendToChunk b).staged = s.staged ∧
        (s.appendToChunk b).chunk = some (buf.write b)) ∧
    (∀ buf, s.chunk = some buf → s.chunkSize ≤ buf.pos →
        (s.appendToChunk b).staged = s.staged
            ++ [(blockId (s.chunkIdx + 1).toNat, buf.data.take buf.pos)] ∧
        (s.appendToChunk b).chunk = some (ByteBuf.write ⟨[], 0⟩ b)) ∧
    (s.chunk = none →
        (s.appendToChunk b).staged = s.staged ∧
        (s.appendToChunk b).chunk = some (ByteBuf.write ⟨[], 0⟩ b)) ∧
    (∃ buf₀ : ByteBuf, (s.appendToChunk b).chunk = some (buf₀.write b) ∧
        buf₀.pos < s.chunkSize) := by
  refine ⟨?_, ?_, ?_, ?_⟩
  · intro buf hc hlt
    have hni : ¬ s.chunkSize ≤ buf.pos := by omega
    rw [AzureBlobWriter.appendToChunk]
    simp [hc, hni]
  · intro buf hc hge
    have hpos : ¬ buf.pos = 0 := by omega
    rw [AzureBlobWriter.appendToChunk]
    simp [hc, hge, AzureBlobWriter.nextChunk, AzureBlobWriter.flush, hpos]
  · intro hc
    rw [AzureBlobWriter.appendToChunk]
    simp [hc, AzureBlobWriter.nextChunk, AzureBlobWriter.flush]
  · rw [AzureBlobWriter.appendToChunk]
    match hc : s.chunk with
    | none =>
      refine ⟨⟨[], 0⟩, ?_, hS⟩
      simp [hc, AzureBlobWriter.nextChunk]
    | some buf =>
      by_cases hroll : s.chunkSize ≤ buf.pos
      · refine ⟨⟨[], 0⟩, ?_, hS⟩
        simp [hc, hroll, AzureBlobWriter.nextChunk]
      · refine ⟨buf, ?_, by omega⟩
        simp [hc, hroll]

theorem claim_C2_amended_witness :
    0 < (2 : Nat) ∧
    ((∀ buf, (⟨2, -1, some ⟨[5], 1⟩, [], [], []⟩ : AzureBlobWriter).chunk
          = some buf → buf.pos < 2 →
        ((⟨2, -1, some ⟨[5], 1⟩, [], [], []⟩ : AzureBlobWriter).appendToChunk
            [6]).staged = [] ∧
        ((⟨2, -1, some ⟨[5], 1⟩, [], [], []⟩ : AzureBlobWriter).appendToChunk
            [6]).chunk = some (buf.write [6])) ∧
     (∀ buf, (⟨2, -1, some ⟨[5], 1⟩, [], [], []⟩ : AzureBlobWriter).chunk
          = some buf → 2 ≤ buf.pos →
        ((⟨2, -1, some ⟨[5], 1⟩, [], [], []⟩ : AzureBlobWriter).appendToChunk
            [6]).staged = []
            ++ [(blockId ((-1 : Int) + 1).toNat, buf.data.take buf.pos)] ∧
        ((⟨2, -1, some ⟨[5], 1⟩, [], [], []⟩ : AzureBlobWriter).appendToChunk
            [6]).chunk = some (ByteBuf.write ⟨[], 0⟩ [6])) ∧
     ((⟨2, -1, some ⟨[5], 1⟩, [], [], []⟩ : AzureBlobWriter).chunk = none →
        ((⟨2, -1, some ⟨[5], 1⟩, [], [], []⟩ : AzureBlobWriter).appendToChunk
            [6]).staged = [] ∧
        ((⟨2, -1, some ⟨[5], 1⟩, [], [], []⟩ : AzureBlobWriter).appendToChunk
            [6]).chunk = some (ByteBuf.write ⟨[], 0⟩ [6])) ∧
     (∃ buf₀ : ByteBuf,
        ((⟨2, -1, some ⟨[5], 1⟩, [], [], []⟩ : AzureBlobWriter).appendToChunk
            [6]).chunk = some (buf₀.write [6]) ∧ buf₀.pos < 2)) :=
  ⟨by decide, claim_C2_amended ⟨2, -1, some ⟨[5], 1⟩, [], [], []⟩ [6] (by decide)⟩

/-- C4: the code has no capacity check.  With `_chunk_idx = 49999` (50000
blocks already staged) the next flush silently stages a 50001st block with
identifier `"NTAwMDA="` (base64 of `"50000"`): no error is raised and the
index does not wrap (the id differs from every earlier one). -/
theorem claim_C4_limit_unchecked :
    AzureBlobWriter.flush ⟨1, 49999, some ⟨[7], 1⟩, [], [], []⟩
      = ⟨1, 50000, some ⟨[7], 0⟩, ["NTAwMDA="], [("NTAwMDA=", [7])], []⟩ ∧
    blockId 50000 = "NTAwMDA=" ∧ blockId 50000 ≠ blockId 0 := by decide

/-- C10: `close` is not idempotent.  After any `close` whose block list is
non-empty, a second `close` stages no new block (the buffer position is 0, so
the flush is a no-op) but repeats the `commit_block_list` call with the same
block list. -/
theorem claim_C10 (s0 : AzureBlobWriter) (h : s0.close.blocks ≠ []) :
    s0.close.close.staged = s0.close.staged ∧
    s0.close.close.blocks = s0.close.blocks ∧
    s0.close.close.commits = s0.close.commits ++ [s0.close.blocks] := by
  have hpos : ∀ buf, s0.close.chunk = some buf → buf.pos = 0 := by
    intro buf hb
    rw [s0.chunk_close] at hb
    exact s0.flush_chunk_pos buf hb
  have hfl : s0.close.flush = s0.close := s0.close.flush_noop hpos
  have hkey : s0.close.close
      = { s0.close with commits := s0.close.commits ++ [s0.close.blocks] } := by
    conv_lhs => rw [AzureBlobWriter.close]
    simp only [hfl]
    rw [if_neg h]
  rw [hkey]
  exact ⟨rfl, rfl, rfl⟩

theorem claim_C10_witness :
    ((initWriter 1).write [5]).close.blocks ≠ [] ∧
    (((initWriter 1).write [5]).close.close.staged
        = ((initWriter 1).write [5]).close.staged ∧
     ((initWriter 1).write [5]).close.close.blocks
        = ((initWriter 1).write [5]).close.blocks ∧
     ((initWriter 1).write [5]).close.close.commits
        = ((initWriter 1).write [5]).close.commits
            ++ [((initWriter 1).write [5]).close.blocks]) :=
  ⟨by decide, claim_C10 ((initWriter 1).write [5]) (by decide)⟩

/-- C5 (amended, restricted to at most 100000 flush events): for every write
sequence producing `k ≤ 100000` staging flush events, the block id list has
length `k`, its `i`-th element is `blockId i` — the urlsafe base64 encoding of
the zero-padded decimal string of `i`, which for these indices is exactly 5
digits long — the decoded indices are `0, 1, ..., k-1`, hence strictly
increasing, and all identifiers have encoded length 8. -/
theorem claim_C5_amended (writes : List (List Nat)) (S : Nat) (hS : 0 < S)
    (hk : ((initWriter S).writeMany writes).close.staged.length ≤ 100000) :
    ((initWriter S).writeMany writes).close.blocks.length
        = ((initWriter S).writeMany writes).close.staged.length ∧
    ((initWriter S).writeMany writes).close.blocks
        = (List.range ((initWriter S).writeMany writes).close.staged.length).map
            blockId ∧
    (∀ i < ((initWriter S).writeMany writes).close.staged.length,
        (format05 i).length = 5) ∧
    ((initWriter S).writeMany writes).close.blocks.map decodeBlockId
        = List.range ((initWriter S).writeMany writes).close.staged.length ∧
    (((initWriter S).writeMany writes).close.blocks.map
        decodeBlockId).Pairwise (· < ·) ∧
    (∀ bid ∈ ((initWriter S).writeMany writes).close.blocks, bid.length = 8) := by
  have hbinv0 : (initWriter S).blocksInv := by
    refine ⟨rfl, rfl, ?_⟩
    simp [initWriter]
  have hbinvw : ((initWriter S).writeMany writes).blocksInv :=
    AzureBlobWriter.binv_writeMany writes _ hbinv0
  have hbinvf : ((initWriter S).writeMany writes).flush.blocksInv :=
    AzureBlobWriter.binv_flush _ hbinvw
  have hcl := ((initWriter S).writeMany writes).staged_close
  set f := ((initWriter S).writeMany writes).close with hf
  have hblocks : f.blocks = (List.range f.staged.length).map blockId := by
    rw [hcl.2.1, hcl.1, hbinvf.1, hbinvf.2.1]
  have hlen : f.blocks.length = f.staged.length := by
    rw [hblocks, List.length_map, List.length_range]
  have hdec : f.blocks.map decodeBlockId = List.range f.staged.length := by
    rw [hblocks, List.map_map]
    refine List.map_congr_left ?_ |>.trans (List.map_id _)
    intro i hi
    rw [List.mem_range] at hi
    exact decodeBlockId_blockId i (by omega)
  refine ⟨hlen, hblocks, ?_, hdec, ?_, ?_⟩
  · intro i hi
    exact format05_length5 i (by omega)
  · rw [hdec]
    exact List.pairwise_lt_range _
  · intro bid hbid
    rw [hblocks, List.mem_map] at hbid
    obtain ⟨i, hi, rfl⟩ := hbid
    rw [List.mem_range] at hi
    exact blockId_length8 i (by omega)

theorem claim_C5_amended_witness :
    0 < 1 ∧
    ((initWriter 1).writeMany [[1], [2], [3]]).close.staged.length ≤ 100000 ∧
    (((initWriter 1).writeMany [[1], [2], [3]]).close.blocks.length
        = ((initWriter 1).writeMany [[1], [2], [3]]).close.staged.length ∧
     ((initWriter 1).writeMany [[1], [2], [3]]).close.blocks
        = (List.range
            ((initWriter 1).writeMany [[1], [2], [3]]).close.staged.length).map
            blockId ∧
     (∀ i < ((initWriter 1).writeMany [[1], [2], [3]]).close.staged.length,
        (format05 i).length = 5) ∧
     ((initWriter 1).writeMany [[1], [2], [3]]).close.blocks.map decodeBlockId
        = List.range
            ((initWriter 1).writeMany [[1], [2], [3]]).close.staged.length ∧
     (((initWriter 1).writeMany [[1], [2], [3]]).close.blocks.map
        decodeBlockId).Pairwise (· < ·) ∧
     (∀ bid ∈ ((initWriter 1).writeMany [[1], [2], [3]]).close.blocks,
        bid.length = 8)) :=
  ⟨by decide, by decide, claim_C5_amended [[1], [2], [3]] 1 (by decide) (by decide)⟩

theorem writer_trace (n : Nat) :
    (initWriter 1).writeMany (List.replicate (n + 1) [7])
      = ⟨1, (n : Int) - 1, some ⟨[7], 1⟩, (List.range n).map blockId,
         (List.range n).map (fun i => (blockId i, [7])), []⟩ := by
  induction n with
  | zero => decide
  | succ n ih =>
    have hidx : ((n : Int) - 1 + 1).toNat = n := by omega
    simp only [AzureBlobWriter.writeMany] at ih ⊢
    rw [List.replicate_succ' (n + 1), List.foldl_append, ih]
    simp only [List.foldl_cons, List.foldl_nil, AzureBlobWriter.write,
      AzureBlobWriter.appendToChunk, AzureBlobWriter.nextChunk,
      AzureBlobWriter.flush, ByteBuf.write]
    norm_num
    constructor <;> (rw [List.range_succ]; simp)

/-- C5 counterexample: 100001 one-byte writes with block size 1 produce
100001 flush events, and the claim fails as stated: the last identifier is
`blockId 100000 = "MTAwMDAw"`, the base64 encoding of the six-digit string
`"100000"` — there is no zero-padded 5-digit decimal string of index 100000,
and `"MTAwMDAw"` is not the base64 encoding of any 5-byte string (those all
end in `'='`). -/
theorem writer_trace_close (n : Nat) :
    ((initWriter 1).writeMany (List.replicate (n + 1) [7])).close
      = ⟨1, (n : Int), some ⟨[7], 0⟩,
         (List.range (n + 1)).map blockId,
         (List.range (n + 1)).map (fun i => (blockId i, [7])),
         [(List.range (n + 1)).map blockId]⟩ := by
  have hidx : ((n : Int) - 1 + 1) = (n : Int) := by ring
  rw [writer_trace n, AzureBlobWriter.close]
  simp [AzureBlobWriter.flush, hidx, List.range_succ]

theorem trace_close_staged_len (n : Nat) :
    ((initWriter 1).writeMany (List.replicate (n + 1) [7])).close.staged.length
      = n + 1 := by
  rw [writer_trace_close n]
  show ((List.range (n + 1)).map (fun i => (blockId i, [7]))).length = n + 1
  rw [List.length_map, List.length_range]

theorem trace_close_blocks_last (n : Nat) :
    ((initWriter 1).writeMany (List.replicate (n + 1) [7])).close.blocks.getLast?
      = some (blockId n) := by
  rw [writer_trace_close n]
  show ((List.range (n + 1)).map blockId).getLast? = some (blockId n)
  rw [List.range_succ, List.map_append]
  simp

theorem claim_C5_counterexample :
    ((initWriter 1).writeMany (List.replicate (100000 + 1) [7])).close.staged.length
        = 100001 ∧
    ((initWriter 1).writeMany
        (List.replicate (100000 + 1) [7])).close.blocks.getLast?
        = some (blockId 100000) ∧
    blockId 100000 = "MTAwMDAw" ∧
    (format05 100000).length = 6 ∧
    ¬ ∃ l : List Nat, l.length = 5 ∧ b64enc l = "MTAwMDAw".data := by
  refine ⟨(trace_close_staged_len 100000).trans (by norm_num),
    trace_close_blocks_last 100000, by decide, by decide, ?_⟩
  rintro ⟨l, h5, he⟩
  have hlast := b64enc_getLast5 l h5
  rw [he] at hlast
  exact absurd hlast (by decide)

/-! ### Lemmas: `AzureBlobReader` -/

theorem take_append_drop_take (X : List Nat) (n : Nat) :
    X.take n ++ X.drop (X.take n).length = X := by
  rcases le_total n X.length with h | h
  · rw [List.length_take, Nat.min_eq_left h, List.take_append_drop]
  · rw [List.take_of_length_le h, List.drop_length, List.append_nil]

theorem serve_prefix (c : List Nat) (p n : Nat) :
    (c.drop p).take n ++ c.drop (p + ((c.drop p).take n).length) = c.drop p := by
  rw [← List.drop_drop, take_append_drop_take]

theorem getChunkData_spec (s : AzureBlobReader) (n : Nat) (hn : n ≠ 0) :
    (s.fetchCondB = false → ∃ c, s.chunk = some c ∧ s.pos < c.length ∧
        s.getChunkData n
          = ((c.drop s.pos).take n,
             { s with pos := s.pos + ((c.drop s.pos).take n).length })) ∧
    (s.fetchCondB = true →
        ∀ h : s.idx < s.chunks.length,
        s.getChunkData n
          = ((s.chunks.get ⟨s.idx, h⟩).take n,
             { s with idx := s.idx + 1,
                      chunk := some (s.chunks.get ⟨s.idx, h⟩),
                      pos := ((s.chunks.get ⟨s.idx, h⟩).take n).length })) ∧
    (s.fetchCondB = true → ¬ s.idx < s.chunks.length →
        s.getChunkData n = ([], s)) := by
  refine ⟨?_, ?_, ?_⟩
  · intro hf
    match hc : s.chunk with
    | none =>
      rw [AzureBlobReader.fetchCondB, hc] at hf
      cases hf
    | some c =>
      have hlt : s.pos < c.length := by
        rw [AzureBlobReader.fetchCondB, hc] at hf
        simp at hf
        omega
      refine ⟨c, rfl, hlt, ?_⟩
      rw [AzureBlobReader.getChunkData, if_neg hn]
      simp [hf, hc]
  · intro hf h
    rw [AzureBlobReader.getChunkData, if_neg hn]
    simp [hf, AzureBlobReader.nextChunk, h]
  · intro hf h
    rw [AzureBlobReader.getChunkData, if_neg hn]
    simp [hf, AzureBlobReader.nextChunk, h]

theorem fetchCond_of_chunkRem (s : AzureBlobReader) (h : s.chunkRem = 0) :
    s.fetchCondB = true := by
  rw [AzureBlobReader.fetchCondB]
  match hc : s.chunk with
  | none => rfl
  | some c =>
    rw [AzureBlobReader.chunkRem, hc] at h
    simp at h ⊢
    omega

theorem oldChunk_nil_of_fetch (s : AzureBlobReader) (hf : s.fetchCondB = true) :
    (match s.chunk with
     | none => ([] : List Nat)
     | some c => c.drop s.pos) = [] := by
  match hc : s.chunk with
  | none => rfl
  | some c =>
    rw [AzureBlobReader.fetchCondB, hc] at hf
    simp at hf
    exact List.drop_eq_nil_of_le hf

theorem getChunkData_prefix (s : AzureBlobReader) (n : Nat) :
    (s.getChunkData n).1 ++ (s.getChunkData n).2.remList = s.remList := by
  by_cases hn : n = 0
  · rw [hn, AzureBlobReader.getChunkData]
    simp
  · have hs := getChunkData_spec s n hn
    cases hf : s.fetchCondB
    · obtain ⟨c, hc, hlt, heq⟩ := hs.1 hf
      rw [heq]
      simp only [AzureBlobReader.remList, hc]
      rw [← List.append_assoc, serve_prefix]
    · by_cases hidx : s.idx < s.chunks.length
      · rw [hs.2.1 hf hidx]
        simp only [AzureBlobReader.remList, oldChunk_nil_of_fetch s hf,
          List.nil_append]
        rw [List.drop_eq_getElem_cons hidx, List.flatten_cons,
          ← List.append_assoc]
        congr 1
        have := take_append_drop_take (s.chunks.get ⟨s.idx, hidx⟩) n
        simpa using this
      · rw [hs.2.2 hf hidx]
        simp

theorem getChunkData_consts (s : AzureBlobReader) (n : Nat) :
    (s.getChunkData n).2.chunks = s.chunks ∧
    (s.getChunkData n).2.chunkSize = s.chunkSize := by
  by_cases hn : n = 0
  · rw [hn, AzureBlobReader.getChunkData]
    simp
  · have hs := getChunkData_spec s n hn
    cases hf : s.fetchCondB
    · obtain ⟨c, hc, hlt, heq⟩ := hs.1 hf
      rw [heq]
      exact ⟨rfl, rfl⟩
    · by_cases hidx : s.idx < s.chunks.length
      · rw [hs.2.1 hf hidx]
        exact ⟨rfl, rfl⟩
      · rw [hs.2.2 hf hidx]
        exact ⟨rfl, rfl⟩

theorem getChunkData_len_le (s : AzureBlobReader) (n : Nat) :
    (s.getChunkData n).1.length ≤ n := by
  by_cases hn : n = 0
  · rw [hn, AzureBlobReader.getChunkData]
    simp
  · have hs := getChunkData_spec s n hn
    cases hf : s.fetchCondB
    · obtain ⟨c, hc, hlt, heq⟩ := hs.1 hf
      rw [heq]
      simp [List.length_take]
    · by_cases hidx : s.idx < s.chunks.length
      · rw [hs.2.1 hf hidx]
        simp [List.length_take]
      · rw [hs.2.2 hf hidx]
        simp

theorem getChunkData_short (s : AzureBlobReader) (n : Nat) (hn : n ≠ 0)
    (h : (s.getChunkData n).1.length < n) :
    (s.getChunkData n).2.chunkRem = 0 := by
  have hs := getChunkData_spec s n hn
  cases hf : s.fetchCondB
  · obtain ⟨c, hc, hlt, heq⟩ := hs.1 hf
    rw [heq] at h ⊢
    simp only [AzureBlobReader.chunkRem, hc]
    simp only [List.length_take, List.length_drop] at h ⊢
    omega
  · by_cases hidx : s.idx < s.chunks.length
    · rw [hs.2.1 hf hidx] at h ⊢
      simp only [AzureBlobReader.chunkRem]
      simp only [List.length_take] at h ⊢
      omega
    · rw [hs.2.2 hf hidx] at h ⊢
      rw [AzureBlobReader.chunkRem]
      match hc : s.chunk with
      | none => rfl
      | some c =>
        rw [AzureBlobReader.fetchCondB, hc] at hf
        simp at hf
        show c.length - s.pos = 0
        omega

theorem getChunkData_stop (s : AzureBlobReader) (n : Nat) (hn : n ≠ 0)
    (hne : ∀ c ∈ s.chunks, c ≠ []) (hd : (s.getChunkData n).1 = []) :
    (s.getChunkData n).2 = s ∧ s.remList = [] := by
  have hs := getChunkData_spec s n hn
  cases hf : s.fetchCondB
  · obtain ⟨c, hc, hlt, heq⟩ := hs.1 hf
    rw [heq] at hd
    exfalso
    have hdropne : c.drop s.pos ≠ [] := by
      intro h3
      have := List.drop_eq_nil_iff.mp h3
      omega
    rcases List.take_eq_nil_iff.mp hd with h4 | h4 <;> simp_all
  · by_cases hidx : s.idx < s.chunks.length
    · rw [hs.2.1 hf hidx] at hd
      exfalso
      have hmem : s.chunks.get ⟨s.idx, hidx⟩ ∈ s.chunks := List.get_mem _ _ hidx
      have := hne _ hmem
      rcases List.take_eq_nil_iff.mp hd with h4 | h4 <;> simp_all
    · refine ⟨by rw [hs.2.2 hf hidx], ?_⟩
      rw [AzureBlobReader.remList, oldChunk_nil_of_fetch s hf]
      rw [List.drop_eq_nil_of_le (by omega)]
      simp

theorem readallAux_prefix (fuel : Nat) :
    ∀ s : AzureBlobReader,
    (AzureBlobReader.readallAux fuel s).1
        ++ (AzureBlobReader.readallAux fuel s).2.remList = s.remList := by
  induction fuel with
  | zero => intro s; simp [AzureBlobReader.readallAux]
  | succ fuel ih =>
    intro s
    rw [AzureBlobReader.readallAux]
    by_cases hd : (s.getChunkData s.chunkSize).1 = []
    · simp only [hd, if_pos]
      have := getChunkData_prefix s s.chunkSize
      rw [hd] at this
      simpa using this
    · simp only [hd, if_neg, List.nil_eq, reduceIte]
      have hpre := getChunkData_prefix s s.chunkSize
      rw [List.append_assoc, ih]
      rw [hpre]

theorem readallAux_drain (fuel : Nat) :
    ∀ s : AzureBlobReader, s.remBytes < fuel → 0 < s.chunkSize →
    (∀ c ∈ s.chunks, c ≠ []) →
    (AzureBlobReader.readallAux fuel s).1 = s.remList ∧
    (AzureBlobReader.readallAux fuel s).2.remList = [] := by
  induction fuel with
  | zero => intro s h; omega
  | succ fuel ih =>
    intro s hfu hcs hne
    rw [AzureBlobReader.readallAux]
    by_cases hd : (s.getChunkData s.chunkSize).1 = []
    · have hstop := getChunkData_stop s s.chunkSize (by omega) hne hd
      simp only [hd, if_pos]
      rw [hstop.1]
      exact ⟨hstop.2.symm, hstop.2⟩
    · simp only [hd, if_neg, List.nil_eq, reduceIte]
      have hpre := getChunkData_prefix s s.chunkSize
      have hconsts := getChunkData_consts s s.chunkSize
      have hlen : (s.getChunkData s.chunkSize).1.length
          + (s.getChunkData s.chunkSize).2.remBytes = s.remBytes := by
        rw [AzureBlobReader.remBytes, AzureBlobReader.remBytes,
          ← List.length_append, hpre]
      have hd1 : 0 < (s.getChunkData s.chunkSize).1.length :=
        List.length_pos.mpr hd
      have hrec := ih (s.getChunkData s.chunkSize).2 (by omega)
        (by rw [hconsts.2]; exact hcs) (by rw [hconsts.1]; exact hne)
      refine ⟨?_, hrec.2⟩
      rw [hrec.1, hpre]

theorem read_prefix (s : AzureBlobReader) (z : Int) :
    (s.read z).1 ++ (s.read z).2.remList = s.remList := by
  rw [AzureBlobReader.read]
  by_cases hz : z < 0
  · rw [if_pos hz, AzureBlobReader.readall]
    exact readallAux_prefix _ s
  · rw [if_neg hz]
    exact getChunkData_prefix s z.toNat

theorem readSeq_prefix (sizes : List Int) :
    ∀ s : AzureBlobReader,
    (s.readSeq sizes).1.flatten ++ (s.readSeq sizes).2.remList = s.remList := by
  induction sizes with
  | nil => intro s; simp [AzureBlobReader.readSeq]
  | cons z zs ih =>
    intro s
    rw [AzureBlobReader.readSeq]
    simp only [List.flatten_cons]
    rw [List.append_assoc, ih, read_prefix]

theorem read_exhausted (s : AzureBlobReader) (hidx : s.idx = s.chunks.length)
    (hrem : s.chunkRem = 0) : ∀ z : Int, s.read z = ([], s) := by
  have hf : s.fetchCondB = true := fetchCond_of_chunkRem s hrem
  have hgc : ∀ n : Nat, s.getChunkData n = ([], s) := by
    intro n
    by_cases hn : n = 0
    · rw [hn, AzureBlobReader.getChunkData]
      simp
    · exact (getChunkData_spec s n hn).2.2 hf (by omega)
  intro z
  rw [AzureBlobReader.read]
  by_cases hz : z < 0
  · rw [if_pos hz, AzureBlobReader.readall, AzureBlobReader.readallAux]
    simp [hgc]
  · rw [if_neg hz]
    exact hgc z.toNat

/-- C3 counterexample: over backend chunks `[97, 98]` and `[99]`, a fresh
reader's `read(3)` returns only 2 bytes although the underlying data is not
at end-of-data — the next read still returns `[99]`. -/
theorem claim_C3_counterexample :
    ((initReader [[97, 98], [99]] 4).read 3).1 = [97, 98] ∧
    ((initReader [[97, 98], [99]] 4).read 3).1.length < 3 ∧
    ((initReader [[97, 98], [99]] 4).read 3).2.remList = [99] ∧
    (((initReader [[97, 98], [99]] 4).read 3).2.read 3).1 = [99] := by decide

/-- C3 (amended): `read(n)` with `n > 0` returns at most `n` bytes, and a
short read occurs exactly when the chunk being served has fewer than `n`
bytes remaining (the chunk is left fully consumed) — which can happen while
later chunks still hold data, not only at end-of-data.  Once the chunk
iterator is exhausted and the buffered chunk is consumed, every read of any
size returns the empty byte string and leaves the state unchanged.  A read
with negative size reads to exhaustion and returns exactly the remaining
bytes, provided the backend's chunks are non-empty. -/
theorem claim_C3_amended :
    (∀ (s : AzureBlobReader) (n : Nat), 0 < n →
        (s.read (n : Int)).1.length ≤ n) ∧
    (∀ (s : AzureBlobReader) (n : Nat), 0 < n →
        (s.read (n : Int)).1.length < n → (s.read (n : Int)).2.chunkRem = 0) ∧
    (∀ s : AzureBlobReader, s.idx = s.chunks.length → s.chunkRem = 0 →
        ∀ z : Int, s.read z = ([], s)) ∧
    (∀ s : AzureBlobReader, (∀ c ∈ s.chunks, c ≠ []) → 0 < s.chunkSize →
        ∀ z : Int, z < 0 →
          (s.read z).1 = s.remList ∧ (s.read z).2.remList = []) := by
  refine ⟨?_, ?_, ?_, ?_⟩
  · intro s n hn
    rw [AzureBlobReader.read, if_neg (by omega), Int.toNat_natCast]
    exact getChunkData_len_le s n
  · intro s n hn hshort
    rw [AzureBlobReader.read, if_neg (by omega), Int.toNat_natCast] at hshort ⊢
    exact getChunkData_short s n (by omega) hshort
  · exact read_exhausted
  · intro s hne hcs z hz
    rw [AzureBlobReader.read, if_pos hz, AzureBlobReader.readall]
    exact readallAux_drain _ s (by omega) hcs hne

theorem claim_C3_amended_witness :
    ((initReader [[97, 98], [99]] 4).read ((3 : Nat) : Int)).1.length ≤ 3 ∧
    ((initReader [[97, 98], [99]] 4).read ((3 : Nat) : Int)).2.chunkRem = 0 ∧
    (⟨[[97]], 1, some [97], 1, 4⟩ : AzureBlobReader).read 5
      = ([], (⟨[[97]], 1, some [97], 1, 4⟩ : AzureBlobReader)) ∧
    ((initReader [[97, 98], [99]] 4).read (-1)).1
      = (initReader [[97, 98], [99]] 4).remList ∧
    ((initReader [[97, 98], [99]] 4).read (-1)).2.remList = [] :=
  ⟨claim_C3_amended.1 _ 3 (by decide),
   claim_C3_amended.2.1 _ 3 (by decide) (by decide),
   claim_C3_amended.2.2.1 _ (by decide) (by decide) 5,
   (claim_C3_amended.2.2.2 _ (by decide) (by decide) (-1) (by decide)).1,
   (claim_C3_amended.2.2.2 _ (by decide) (by decide) (-1) (by decide)).2⟩

/-- C6: any sequence of reads partitions the stream exactly — the outputs
concatenated, followed by the not-yet-served bytes, equal the original chunk
content in order, so reads continued to exhaustion yield exactly the original
`N` bytes; a zero-size read returns no bytes and leaves the reader untouched
(no chunk fetch); a positive read advances the lazy chunk iterator at most
once — exactly once, before serving bytes, when the buffered chunk is unset
or fully consumed and a chunk is available, and never when the buffered chunk
still has unserved bytes. -/
theorem claim_C6 :
    (∀ (chunks : List (List Nat)) (cs : Nat) (sizes : List Int),
        ((initReader chunks cs).readSeq sizes).1.flatten
            ++ ((initReader chunks cs).readSeq sizes).2.remList
          = chunks.flatten ∧
        (((initReader chunks cs).readSeq sizes).2.remList = [] →
          ((initReader chunks cs).readSeq sizes).1.flatten = chunks.flatten)) ∧
    (∀ s : AzureBlobReader, s.getChunkData 0 = ([], s)) ∧
    (∀ (s : AzureBlobReader) (n : Nat), 0 < n →
        (s.getChunkData n).2.idx ≤ s.idx + 1) ∧
    (∀ (s : AzureBlobReader) (n : Nat), 0 < n → s.fetchCondB = false →
        (s.getChunkData n).2.idx = s.idx ∧
        (s.getChunkData n).2.chunk = s.chunk) ∧
    (∀ (s : AzureBlobReader) (n : Nat), 0 < n → s.fetchCondB = true →
        ∀ h : s.idx < s.chunks.length,
          (s.getChunkData n).2.idx = s.idx + 1 ∧
          (s.getChunkData n).1 = (s.chunks.get ⟨s.idx, h⟩).take n) := by
  refine ⟨?_, ?_, ?_, ?_, ?_⟩
  · intro chunks cs sizes
    have h := readSeq_prefix sizes (initReader chunks cs)
    have h0 : (initReader chunks cs).remList = chunks.flatten := by
      rw [AzureBlobReader.remList]
      simp [initReader]
    rw [h0] at h
    refine ⟨h, fun hnil => ?_⟩
    rw [hnil] at h
    simpa using h
  · intro s
    rw [AzureBlobReader.getChunkData]
    simp
  · intro s n hn
    have hs := getChunkData_spec s n (by omega)
    cases hf : s.fetchCondB
    · obtain ⟨c, hc, hlt, heq⟩ := hs.1 hf
      rw [heq]
      show s.idx ≤ s.idx + 1
      omega
    · by_cases hidx : s.idx < s.chunks.length
      · rw [hs.2.1 hf hidx]
      · rw [hs.2.2 hf hidx]
        show s.idx ≤ s.idx + 1
        omega
  · intro s n hn hf
    obtain ⟨c, hc, hlt, heq⟩ := (getChunkData_spec s n (by omega)).1 hf
    rw [heq]
    exact ⟨rfl, rfl⟩
  · intro s n hn hf h
    rw [(getChunkData_spec s n (by omega)).2.1 hf h]
    exact ⟨rfl, rfl⟩

theorem claim_C6_witness :
    ((initReader [[1, 2], [3]] 2).readSeq [1, 2, 5]).1.flatten
        ++ ((initReader [[1, 2], [3]] 2).readSeq [1, 2, 5]).2.remList
      = [[1, 2], [3]].flatten ∧
    (initReader [[1, 2], [3]] 2).getChunkData 0
      = ([], initReader [[1, 2], [3]] 2) ∧
    ((initReader [[1, 2], [3]] 2).getChunkData 1).2.idx
        ≤ (initReader [[1, 2], [3]] 2).idx + 1 ∧
    ((⟨[[1, 2]], 1, some [1, 2], 1, 2⟩ : AzureBlobReader).getChunkData 1).2.idx
        = (⟨[[1, 2]], 1, some [1, 2], 1, 2⟩ : AzureBlobReader).idx ∧
    ((initReader [[1, 2], [3]] 2).getChunkData 1).2.idx
        = (initReader [[1, 2], [3]] 2).idx + 1 :=
  ⟨(claim_C6.1 [[1, 2], [3]] 2 [1, 2, 5]).1,
   claim_C6.2.1 _,
   claim_C6.2.2.1 _ 1 (by decide),
   (claim_C6.2.2.2.1 _ 1 (by decide) (by decide)).1,
   (claim_C6.2.2.2.2 _ 1 (by decide) (by decide) (by decide)).1⟩

/-! ### Lemmas: `NonBlockingIOManager` -/

theorem lookupPath_enqueue (l : List (String × PathData)) (p : String)
    (it : Option Job) (pd : PathData) (h : lookupPath l p = some pd) :
    lookupPath (l.map fun e =>
        if e.1 = p then (e.1, { e.2 with queue := e.2.queue ++ [it] }) else e) p
      = some { pd with queue := pd.queue ++ [it] } := by
  induction l with
  | nil => cases h
  | cons e rest ih =>
    rw [List.map_cons]
    by_cases he : e.1 = p
    · rw [lookupPath, if_pos he] at h
      injection h with h
      simp [lookupPath, he, h]
    · rw [lookupPath, if_neg he] at h
      simp only [lookupPath, if_neg he]
      exact ih h

theorem drain_map_some (js : List Job) :
    drain (js.map Option.some ++ [none]) = js := by
  induction js with
  | nil => rfl
  | cons j js ih =>
    rw [List.map_cons, List.cons_append, drain, ih]

theorem lookupPath_none_of_not_mem (l : List (String × PathData)) (p : String)
    (h : p ∉ l.map Prod.fst) : lookupPath l p = none := by
  induction l with
  | nil => rfl
  | cons e rest ih =>
    rw [List.map_cons, List.mem_cons] at h
    push_neg at h
    rw [lookupPath, if_neg (fun he => h.1 he.symm)]
    exact ih h.2

theorem lookupPath_erase (l : List (String × PathData)) (p : String)
    (hnd : (l.map Prod.fst).Nodup) :
    lookupPath (erasePath l p) p = none := by
  induction l with
  | nil => rfl
  | cons e rest ih =>
    rw [List.map_cons, List.nodup_cons] at hnd
    rw [erasePath]
    by_cases he : e.1 = p
    · rw [if_pos he]
      exact lookupPath_none_of_not_mem rest p (he ▸ hnd.1)
    · rw [if_neg he, lookupPath, if_neg he]
      exact ih hnd.2

theorem lookupPath_append_self (l : List (String × PathData)) (p : String)
    (pd : PathData) (h : lookupPath l p = none) :
    lookupPath (l ++ [(p, pd)]) p = some pd := by
  induction l with
  | nil => simp [lookupPath]
  | cons e rest ih =>
    rw [lookupPath] at h
    by_cases he : e.1 = p
    · rw [if_pos he] at h
      cases h
    · rw [if_neg he] at h
      rw [List.cons_append, lookupPath, if_neg he]
      exact ih h

/-- C7: every `write` and every `close` call on a `NonBlockingHandle`
enqueues exactly one closure into the queue registered for the handle's path,
in call order, and no call touches the underlying file synchronously. -/
theorem claim_C7 (p : String) (calls : List Job) (m : NonBlockingIOManager)
    (f : FileState) (pd : PathData) (h : lookupPath m.registry p = some pd) :
    (handleCalls p (m, f) calls).2 = f ∧
    lookupPath (handleCalls p (m, f) calls).1.registry p
      = some { pd with queue := pd.queue ++ calls.map Option.some } := by
  induction calls generalizing m pd with
  | nil =>
    refine ⟨rfl, ?_⟩
    rw [handleCalls, List.foldl_nil]
    simpa using h
  | cons c cs ih =>
    have hstep : handleCalls p (m, f) (c :: cs)
        = handleCalls p (enqueueItem m p (some c), f) cs := rfl
    rw [hstep]
    have hlook : lookupPath (enqueueItem m p (some c)).registry p
        = some { pd with queue := pd.queue ++ [some c] } := by
      rw [enqueueItem]
      exact lookupPath_enqueue m.registry p (some c) pd h
    have := ih (enqueueItem m p (some c)) _ hlook
    refine ⟨this.1, ?_⟩
    rw [this.2]
    simp

theorem claim_C7_witness :
    lookupPath ([("p", ⟨[], 0⟩)] : List (String × PathData)) "p" = some ⟨[], 0⟩ ∧
    ((handleCalls "p" (⟨[("p", ⟨[], 0⟩)], 1, false⟩, ⟨[], false⟩)
        [Job.jwrite [1], Job.jclose]).2 = (⟨[], false⟩ : FileState) ∧
     lookupPath (handleCalls "p" (⟨[("p", ⟨[], 0⟩)], 1, false⟩, ⟨[], false⟩)
          [Job.jwrite [1], Job.jclose]).1.registry "p"
        = some ⟨([] : List (Option Job))
            ++ [Job.jwrite [1], Job.jclose].map Option.some, 0⟩) :=
  ⟨by decide,
   claim_C7 "p" [Job.jwrite [1], Job.jclose] ⟨[("p", ⟨[], 0⟩)], 1, false⟩
     ⟨[], false⟩ ⟨[], 0⟩ (by decide)⟩

/-- C8: joining a registered path with `N` queued jobs executes exactly those
`N` jobs in order (the sentinel is enqueued after them, so the dispatcher
drains them all before exiting), removes the path's entry from the registry,
and a subsequent `open_async` for the same path creates a fresh empty queue
with a fresh dispatcher thread. -/
theorem claim_C8 (m : NonBlockingIOManager) (p : String) (pd : PathData)
    (js : List Job) (N : Nat)
    (hp : p ≠ "") (hl : lookupPath m.registry p = some pd)
    (hq : pd.queue = js.map Option.some) (hN : js.length = N)
    (hnd : (m.registry.map Prod.fst).Nodup) (hth : pd.thread < m.nextThread) :
    joinManager m (some p)
      = Except.ok ({ m with registry := erasePath m.registry p }, [(p, js)]) ∧
    js.length = N ∧
    lookupPath (erasePath m.registry p) p = none ∧
    lookupPath (getNonBlockingHandle
        { m with registry := erasePath m.registry p } p).registry p
      = some { queue := [], thread := m.nextThread } ∧
    m.nextThread ≠ pd.thread := by
  have herase : lookupPath (erasePath m.registry p) p = none :=
    lookupPath_erase m.registry p hnd
  refine ⟨?_, hN, herase, ?_, by omega⟩
  · rw [joinManager]
    simp only [hp, if_neg, reduceIte, hl]
    rw [hq, drain_map_some]
  · rw [getNonBlockingHandle]
    simp only [herase]
    exact lookupPath_append_self _ p _ herase

theorem claim_C8_witness :
    ("p" : String) ≠ "" ∧
    lookupPath ([("p", ⟨[some (Job.jwrite [1]), some Job.jclose], 0⟩)] :
        List (String × PathData)) "p"
      = some ⟨[some (Job.jwrite [1]), some Job.jclose], 0⟩ ∧
    (joinManager ⟨[("p", ⟨[some (Job.jwrite [1]), some Job.jclose], 0⟩)], 1,
          false⟩ (some "p")
        = Except.ok (⟨erasePath [("p", ⟨[some (Job.jwrite [1]),
            some Job.jclose], 0⟩)] "p", 1, false⟩,
          [("p", [Job.jwrite [1], Job.jclose])]) ∧
     [Job.jwrite [1], Job.jclose].length = 2 ∧
     lookupPath (erasePath [("p", ⟨[some (Job.jwrite [1]),
          some Job.jclose], 0⟩)] "p") "p" = none ∧
     lookupPath (getNonBlockingHandle ⟨erasePath [("p", ⟨[some (Job.jwrite [1]),
          some Job.jclose], 0⟩)] "p", 1, false⟩ "p").registry "p"
        = some ⟨[], 1⟩ ∧
     (1 : Nat) ≠ 0) :=
  ⟨by decide, by decide,
   claim_C8 ⟨[("p", ⟨[some (Job.jwrite [1]), some Job.jclose], 0⟩)], 1, false⟩
     "p" ⟨[some (Job.jwrite [1]), some Job.jclose], 0⟩
     [Job.jwrite [1], Job.jclose] 2
     (by decide) (by decide) (by decide) (by decide) (by decide) (by decide)⟩

/-- C9 counterexample: the empty string is a path with no registered async
IO, yet `join("")` raises no error — the Python truthiness test `if path and
path not in ...` treats `""` like `None`, so the call joins every registered
path and shuts the pool down instead. -/
theorem claim_C9_counterexample :
    lookupPath ([("a", ⟨[some Job.jclose], 0⟩)] : List (String × PathData)) ""
      = none ∧
    joinManager ⟨[("a", ⟨[some Job.jclose], 0⟩)], 1, false⟩ (some "")
      = Except.ok (⟨[], 1, true⟩, [("a", [Job.jclose])]) := by
  constructor
  · rfl
  · rfl

/-- C9 (amended): calling `join(path)` for a non-empty path with no
registered async IO raises `ValueError` with the documented message, and the
error is raised before the registry or any queue is mutated (the function
returns only the error); `join("")` is instead treated like `join(None)`. -/
theorem claim_C9_amended (m : NonBlockingIOManager) (p : String) (hp : p ≠ "")
    (h : lookupPath m.registry p = none) :
    joinManager m (some p) = Except.error (joinErrorMsg p) := by
  rw [joinManager]
  simp [hp, h]

theorem claim_C9_amended_witness :
    ("x" : String) ≠ "" ∧
    lookupPath ([] : List (String × PathData)) "x" = none ∧
    joinManager ⟨[], 0, false⟩ (some "x") = Except.error (joinErrorMsg "x") :=
  ⟨by decide, rfl, claim_C9_amended ⟨[], 0, false⟩ "x" (by decide) rfl⟩
